import Mathlib

/-!
Shallow embedding of `js/src/vm/NumericConversions.h` (SpiderMonkey):
ECMAScript-style double → integer conversions.

A C `double` is represented by its 64-bit pattern (`bits : Nat`, `bits < 2^64`)
for the bit-manipulating conversions, and by a value-level type `js.Double`
for `ToInteger`, which only uses comparisons and exact `floor`/`ceil`.
C unsigned arithmetic at width `W` is modelled by `% 2 ^ W`; casts into a
signed W-bit type and wrapping signed arithmetic by `Int.bmod · (2 ^ W)`.
-/

namespace js

/-! Constants from `mozilla::FloatingPoint<double>`. -/

def DoubleExponentShift : Nat := 52

def DoubleExponentBias : Nat := 1023

def DoubleExponentBits : Nat := 0x7FF0000000000000

def DoubleSignBit : Nat := 0x8000000000000000

/-- The biased exponent field of a double bit pattern:
`(bits & ExponentBits) >> ExponentShift`, as in `detail::ToUintWidth`. -/
def biasedExponent (bits : Nat) : Nat :=
  (bits &&& DoubleExponentBits) >>> DoubleExponentShift

/-- The decoded (unbiased) exponent `exp` computed by `detail::ToUintWidth`:
biased exponent field minus the bias 1023, as a signed quantity. -/
def exponentOf (bits : Nat) : Int :=
  (biasedExponent bits : Int) - (DoubleExponentBias : Int)

namespace detail

/-- Embedding of `detail::ToUintWidth<ResultType>(double d)`.
`W` is the bit width of `ResultType` (32 or 64); `bits` is
`mozilla::BitwiseCast<uint64_t>(d)`.  The C casts `ResultType(·)` of 64-bit
values and the wrapping `+` are `% 2 ^ W`; `~result + 1` on W-bit unsigned
values is `((2 ^ W - 1 - result) + 1) % 2 ^ W`. -/
def ToUintWidth (W : Nat) (bits : Nat) : Nat :=
  let exp : Int := js.exponentOf bits
  if exp < 0 then 0
  else
    let exponent : Nat := exp.toNat
    if js.DoubleExponentShift + W ≤ exponent then 0
    else
      let result0 : Nat :=
        if js.DoubleExponentShift < exponent then
          (bits <<< (exponent - js.DoubleExponentShift)) % 2 ^ W
        else
          (bits >>> (js.DoubleExponentShift - exponent)) % 2 ^ W
      let result1 : Nat :=
        if exponent < W then
          let implicitOne : Nat := (1 <<< exponent) % 2 ^ W
          ((result0 &&& (implicitOne - 1)) + implicitOne) % 2 ^ W
        else result0
      if bits &&& js.DoubleSignBit ≠ 0 then ((2 ^ W - 1 - result1) + 1) % 2 ^ W
      else result1

/-- Embedding of `detail::ToIntWidth<ResultType>(double d)`: signed results are
mathematical integers; `static_cast` into the signed type and wrapping signed
arithmetic are two's-complement, i.e. `Int.bmod · (2 ^ W)`. -/
def ToIntWidth (W : Nat) (bits : Nat) : Int :=
  let MaxValue : Int := 2 ^ (W - 1) - 1
  let MinValue : Int := -MaxValue - 1
  let u : Nat := ToUintWidth W bits
  if (u : Int) ≤ MaxValue then (u : Int)
  else Int.bmod (Int.bmod (MinValue + Int.bmod ((u : Int) - MaxValue) (2 ^ W)) (2 ^ W) - 1)
    (2 ^ W)

end detail

/-- ES5 9.5 ToInt32 (portable path, `detail::ToIntWidth<int32_t>`). -/
def ToInt32 (bits : Nat) : Int := detail.ToIntWidth 32 bits

/-- ES5 9.6 ToUint32 (`detail::ToUintWidth<uint32_t>`). -/
def ToUint32 (bits : Nat) : Nat := detail.ToUintWidth 32 bits

/-- WEBIDL 4.2.10 ToInt64 (`detail::ToIntWidth<int64_t>`). -/
def ToInt64 (bits : Nat) : Int := detail.ToIntWidth 64 bits

/-- WEBIDL 4.2.11 ToUint64 (`detail::ToUintWidth<uint64_t>`). -/
def ToUint64 (bits : Nat) : Nat := detail.ToUintWidth 64 bits

/-- Safety companion of `detail::ToUintWidth`: follows the same control flow
and records whether every shift the C code performs has an amount strictly
below the bit width of the shifted operand (64 for the shifts on the raw
`uint64_t` pattern, `W` for the shift building the implicit-one mask, which
the code only performs under its `exponent < W` guard). -/
def shiftsInRange (W : Nat) (bits : Nat) : Bool :=
  let exp : Int := js.exponentOf bits
  if exp < 0 then true
  else
    let exponent : Nat := exp.toNat
    if js.DoubleExponentShift + W ≤ exponent then true
    else
      (if js.DoubleExponentShift < exponent then
        decide (exponent - js.DoubleExponentShift < 64)
       else decide (js.DoubleExponentShift - exponent < 64)) &&
      (if exponent < W then decide (exponent < W) else true)

/-! Specification-side semantics of a double bit pattern. -/

/-- The magnitude |d| of the IEEE-754 value of a 64-bit pattern, as a rational:
subnormals (biased exponent field 0) are `m · 2^(-1074)`, other patterns
`(2^52 + m) · 2^(E - 1075)` with the implicit leading mantissa bit.
Meaningful for finite patterns (field ≠ 0x7FF). -/
def magVal (bits : Nat) : ℚ :=
  if bits / 2 ^ 52 % 2 ^ 11 = 0 then ((bits % 2 ^ 52 : ℕ) : ℚ) / 2 ^ 1074
  else ((2 ^ 52 + bits % 2 ^ 52 : ℕ) : ℚ) *
    (2 : ℚ) ^ (((bits / 2 ^ 52 % 2 ^ 11 : ℕ) : ℤ) - 1075)

/-- The IEEE-754 value of a 64-bit pattern as a rational number (meaningful
for finite patterns): sign bit applied to the magnitude. -/
def ratVal (bits : Nat) : ℚ :=
  if bits / 2 ^ 63 % 2 = 1 then -magVal bits else magVal bits

/-- `floor(|d|)` of a finite pattern, computed arithmetically from the fields. -/
def floorAbs (bits : Nat) : Nat :=
  let E := bits / 2 ^ 52 % 2 ^ 11
  let m := bits % 2 ^ 52
  if E = 0 then 0
  else if 1075 ≤ E then (2 ^ 52 + m) * 2 ^ (E - 1075)
  else (2 ^ 52 + m) / 2 ^ (1075 - E)

/-- `sign(d) · floor(|d|)` of a finite pattern. -/
def truncVal (bits : Nat) : Int :=
  (if bits / 2 ^ 63 % 2 = 1 then -1 else 1) * (floorAbs bits : Int)

/-- The pattern is neither an infinity nor a NaN. -/
def isFiniteBits (bits : Nat) : Bool :=
  bits / 2 ^ 52 % 2 ^ 11 != 2047

/-! Value-level model of a double for `ToInteger`. -/

/-- A C double at value level: NaN, ±infinity, or a finite value given by its
sign bit and magnitude; `finite neg 0` is ±0.0. -/
inductive Double where
  | nan : Double
  | posInf : Double
  | negInf : Double
  | finite (neg : Bool) (mag : ℚ) : Double
deriving DecidableEq

namespace Double

/-- `d == 0` in C: true for both +0.0 and -0.0. -/
def eqZero : Double → Bool
  | finite _ mag => mag == 0
  | _ => false

/-- `mozilla::IsFinite(d)`. -/
def isFin : Double → Bool
  | finite _ _ => true
  | _ => false

/-- `mozilla::IsNaN(d)`. -/
def isNaN : Double → Bool
  | nan => true
  | _ => false

/-- `d < 0` in C (false for -0.0 and NaN). -/
def ltZero : Double → Bool
  | finite neg mag => neg && decide (0 < mag)
  | negInf => true
  | _ => false

/-- The rational value of a finite double. -/
def val : Double → ℚ
  | finite neg mag => if neg then -mag else mag
  | _ => 0

/-- C `floor` on a finite double.  It is exact (the integral part of any double
is itself a double) and keeps the operand's sign bit, so `floor` of a positive
value below 1 is +0.0.  Non-finite operands keep their value (unreachable in
`ToInteger`). -/
def floorD : Double → Double
  | finite neg mag => finite neg |((⌊if neg then -mag else mag⌋ : ℤ) : ℚ)|
  | d => d

/-- C `ceil` on a finite double; exact and sign-preserving, so `ceil` of a
value in (-1, 0) is -0.0. -/
def ceilD : Double → Double
  | finite neg mag => finite neg |((⌈if neg then -mag else mag⌉ : ℤ) : ℚ)|
  | d => d

end Double

/-- ES5 9.4 ToInteger (specialized for doubles). -/
def ToInteger (d : Double) : Double :=
  if d.eqZero then d
  else if ¬ d.isFin then
    (if d.isNaN then Double.finite false 0 else d)
  else if d.ltZero then d.ceilD else d.floorD

/-! ## Characterization of the bit-field extraction -/

theorem biasedExponent_eq (bits : Nat) :
    biasedExponent bits = bits / 2 ^ 52 % 2 ^ 11 := by
  have h : DoubleExponentBits = (2 ^ 11 - 1) <<< 52 := by decide
  rw [biasedExponent, h, DoubleExponentShift, ← Nat.shiftRight_eq_div_pow]
  apply Nat.eq_of_testBit_eq
  intro i
  simp only [Nat.testBit_shiftRight, Nat.testBit_and, Nat.testBit_shiftLeft,
    Nat.testBit_mod_two_pow, Nat.testBit_two_pow_sub_one]
  by_cases hi : i < 11 <;> simp [hi]

theorem signBit_iff (bits : Nat) :
    (bits &&& DoubleSignBit ≠ 0) ↔ bits / 2 ^ 63 % 2 = 1 := by
  have h : DoubleSignBit = 2 ^ 63 := by decide
  rw [h, Nat.and_two_pow, Nat.testBit_to_div_mod]
  rcases Nat.decEq (bits / 2 ^ 63 % 2) 1 with h1 | h1 <;> simp [h1]

/-! ## `floorAbs` facts -/

theorem floorAbs_decomp (s E m : Nat) (hE : E < 2048) (hm : m < 2 ^ 52) :
    floorAbs (s * 2 ^ 63 + E * 2 ^ 52 + m) =
      if E = 0 then 0
      else if 1075 ≤ E then (2 ^ 52 + m) * 2 ^ (E - 1075)
      else (2 ^ 52 + m) / 2 ^ (1075 - E) := by
  have hEx : (s * 2 ^ 63 + E * 2 ^ 52 + m) / 2 ^ 52 % 2 ^ 11 = E := by omega
  have hmx : (s * 2 ^ 63 + E * 2 ^ 52 + m) % 2 ^ 52 = m := by omega
  simp only [floorAbs, hEx, hmx]

theorem floorAbs_small (s E m : Nat) (hE : E < 2048) (hm : m < 2 ^ 52)
    (hlow : E < 1023) : floorAbs (s * 2 ^ 63 + E * 2 ^ 52 + m) = 0 := by
  rw [floorAbs_decomp s E m hE hm]
  by_cases hE0 : E = 0
  · simp [hE0]
  · rw [if_neg hE0, if_neg (by omega)]
    apply Nat.div_eq_of_lt
    calc 2 ^ 52 + m < 2 ^ 53 := by omega
    _ ≤ 2 ^ (1075 - E) := Nat.pow_le_pow_right (by norm_num) (by omega)

theorem floorAbs_overflow (W s e m : Nat) (hE : 1023 + e < 2048)
    (hm : m < 2 ^ 52) (hhi : 52 + W ≤ e) :
    floorAbs (s * 2 ^ 63 + (1023 + e) * 2 ^ 52 + m) % 2 ^ W = 0 := by
  rw [floorAbs_decomp s (1023 + e) m hE hm, if_neg (by omega), if_pos (by omega)]
  exact Nat.mod_eq_zero_of_dvd (Dvd.dvd.mul_left (pow_dvd_pow 2 (by omega)) _)

/-! ## The post-guard computation of `ToUintWidth` equals `floorAbs % 2 ^ W` -/

theorem toUint_core (W e s m : Nat) (hW : 0 < W) (hW64 : W ≤ 64)
    (hs : s < 2) (hE : 1023 + e < 2048) (hm : m < 2 ^ 52) (h2 : e < 52 + W) :
    (if e < W then
        (((if 52 < e then (s * 2 ^ 63 + (1023 + e) * 2 ^ 52 + m) <<< (e - 52) % 2 ^ W
            else (s * 2 ^ 63 + (1023 + e) * 2 ^ 52 + m) >>> (52 - e) % 2 ^ W) &&&
            (1 <<< e % 2 ^ W - 1)) + 1 <<< e % 2 ^ W) % 2 ^ W
      else
        if 52 < e then (s * 2 ^ 63 + (1023 + e) * 2 ^ 52 + m) <<< (e - 52) % 2 ^ W
        else (s * 2 ^ 63 + (1023 + e) * 2 ^ 52 + m) >>> (52 - e) % 2 ^ W)
    = floorAbs (s * 2 ^ 63 + (1023 + e) * 2 ^ 52 + m) % 2 ^ W := by
  set A : Nat := s * 2 ^ 11 + (1023 + e) with hAdef
  set q : Nat := if 52 < e then m * 2 ^ (e - 52) else m / 2 ^ (52 - e) with hq
  have hqlt : q < 2 ^ e := by
    rw [hq]
    by_cases h3 : 52 < e
    · rw [if_pos h3]
      calc m * 2 ^ (e - 52) < 2 ^ 52 * 2 ^ (e - 52) :=
            (Nat.mul_lt_mul_right (Nat.two_pow_pos _)).mpr hm
      _ = 2 ^ e := by rw [← pow_add]; congr 1; omega
    · rw [if_neg h3, Nat.div_lt_iff_lt_mul (Nat.two_pow_pos _)]
      calc m < 2 ^ 52 := hm
      _ = 2 ^ e * 2 ^ (52 - e) := by rw [← pow_add]; congr 1; omega
  have hfa : floorAbs (s * 2 ^ 63 + (1023 + e) * 2 ^ 52 + m) = 2 ^ e + q := by
    rw [floorAbs_decomp s (1023 + e) m hE hm, if_neg (by omega)]
    by_cases h3 : 52 ≤ e
    · rw [if_pos (by omega), hq]
      by_cases h4 : 52 < e
      · rw [if_pos h4]
        have hi1 : 1023 + e - 1075 = e - 52 := by omega
        have he52 : 52 + (e - 52) = e := by omega
        have hsplit : (2 : ℕ) ^ 52 * 2 ^ (e - 52) = 2 ^ e := by
          rw [← pow_add, he52]
        rw [hi1, add_mul, hsplit]
      · have he : e = 52 := by omega
        rw [if_neg h4]
        subst he
        norm_num
    · rw [if_neg (by omega), hq, if_neg (by omega)]
      have hi2 : 1075 - (1023 + e) = 52 - e := by omega
      have hsplit : (2 : ℕ) ^ 52 = 2 ^ (52 - e) * 2 ^ e := by
        rw [← pow_add]; congr 1; omega
      rw [hi2, show 2 ^ 52 + m = m + 2 ^ (52 - e) * 2 ^ e from by
          rw [hsplit]; exact add_comm _ _,
        Nat.add_mul_div_left _ _ (Nat.two_pow_pos _), add_comm]
  have hr0 : (if 52 < e then (s * 2 ^ 63 + (1023 + e) * 2 ^ 52 + m) <<< (e - 52) % 2 ^ W
        else (s * 2 ^ 63 + (1023 + e) * 2 ^ 52 + m) >>> (52 - e) % 2 ^ W)
      = (A * 2 ^ e + q) % 2 ^ W := by
    by_cases h3 : 52 < e
    · rw [if_pos h3, Nat.shiftLeft_eq]
      congr 1
      rw [hq, if_pos h3,
        show s * 2 ^ 63 + (1023 + e) * 2 ^ 52 + m = A * 2 ^ 52 + m from by rw [hAdef]; ring]
      have hsplit : (2 : ℕ) ^ 52 * 2 ^ (e - 52) = 2 ^ e := by
        rw [← pow_add]; congr 1; omega
      calc (A * 2 ^ 52 + m) * 2 ^ (e - 52)
          = A * (2 ^ 52 * 2 ^ (e - 52)) + m * 2 ^ (e - 52) := by ring
      _ = A * 2 ^ e + m * 2 ^ (e - 52) := by rw [hsplit]
    · rw [if_neg h3, Nat.shiftRight_eq_div_pow]
      congr 1
      rw [hq, if_neg h3]
      have hsplit : (2 : ℕ) ^ 52 = 2 ^ (52 - e) * 2 ^ e := by
        rw [← pow_add]; congr 1; omega
      rw [show s * 2 ^ 63 + (1023 + e) * 2 ^ 52 + m = m + 2 ^ (52 - e) * (A * 2 ^ e) from by
            rw [hAdef, show (2 : ℕ) ^ 63 = 2 ^ 11 * 2 ^ 52 from by norm_num, hsplit]; ring,
        Nat.add_mul_div_left _ _ (Nat.two_pow_pos _), add_comm]
  by_cases h4 : e < W
  · rw [if_pos h4]
    have h2eW : (2 : ℕ) ^ e < 2 ^ W := Nat.pow_lt_pow_right one_lt_two h4
    have him : 1 <<< e % 2 ^ W = 2 ^ e := by
      rw [Nat.shiftLeft_eq, one_mul, Nat.mod_eq_of_lt h2eW]
    rw [him, hr0, Nat.and_pow_two_sub_one_eq_mod,
      Nat.mod_mod_of_dvd _ (pow_dvd_pow 2 (le_of_lt h4)),
      show A * 2 ^ e + q = q + 2 ^ e * A from by ring,
      Nat.add_mul_mod_self_left, Nat.mod_eq_of_lt hqlt, hfa, add_comm]
  · rw [if_neg h4, hr0, hfa]
    have hsplit : (2 : ℕ) ^ e = 2 ^ W * 2 ^ (e - W) := by
      rw [← pow_add]; congr 1; omega
    rw [show A * 2 ^ e + q = q + 2 ^ W * (A * 2 ^ (e - W)) from by rw [hsplit]; ring,
      Nat.add_mul_mod_self_left,
      show 2 ^ e + q = q + 2 ^ W * 2 ^ (e - W) from by rw [hsplit]; ring,
      Nat.add_mul_mod_self_left]

theorem toUintWidth_eq_aux (W s E m : Nat) (hW : 0 < W) (hW64 : W ≤ 64)
    (hs : s < 2) (hE : E < 2048) (hm : m < 2 ^ 52) :
    detail.ToUintWidth W (s * 2 ^ 63 + E * 2 ^ 52 + m) =
      if s = 1 then (2 ^ W - floorAbs (s * 2 ^ 63 + E * 2 ^ 52 + m) % 2 ^ W) % 2 ^ W
      else floorAbs (s * 2 ^ 63 + E * 2 ^ 52 + m) % 2 ^ W := by
  have hEx : (s * 2 ^ 63 + E * 2 ^ 52 + m) / 2 ^ 52 % 2 ^ 11 = E := by omega
  have hsx2 : (s * 2 ^ 63 + E * 2 ^ 52 + m) / 2 ^ 63 % 2 = s := by omega
  have hsign : ((s * 2 ^ 63 + E * 2 ^ 52 + m) &&& DoubleSignBit ≠ 0) ↔ s = 1 := by
    rw [signBit_iff, hsx2]
  simp only [detail.ToUintWidth, exponentOf, biasedExponent_eq, DoubleExponentShift,
    DoubleExponentBias, Nat.cast_ofNat, hEx]
  by_cases h1 : (E : ℤ) - 1023 < 0
  · rw [if_pos h1]
    have h0 : floorAbs (s * 2 ^ 63 + E * 2 ^ 52 + m) = 0 :=
      floorAbs_small s E m hE hm (by omega)
    rw [h0]
    simp
  · rw [if_neg h1]
    have hE1 : 1023 ≤ E := by omega
    obtain ⟨e, rfl⟩ : ∃ e, E = 1023 + e := ⟨E - 1023, by omega⟩
    have ht : (((1023 + e : ℕ) : ℤ) - 1023).toNat = e := by omega
    rw [ht]
    by_cases h2 : 52 + W ≤ e
    · rw [if_pos h2, floorAbs_overflow W s e m hE hm h2]
      simp
    · rw [if_neg h2]
      push_neg at h2
      rw [toUint_core W e s m hW hW64 hs hE hm h2]
      simp only [hsign]
      by_cases hss : s = 1
      · rw [if_pos hss, if_pos hss]
        have h2W : 0 < 2 ^ W := Nat.two_pow_pos W
        have hlt : floorAbs (s * 2 ^ 63 + (1023 + e) * 2 ^ 52 + m) % 2 ^ W < 2 ^ W :=
          Nat.mod_lt _ h2W
        exact congrArg (fun z => z % 2 ^ W) (by omega)
      · rw [if_neg hss, if_neg hss]

theorem toUintWidth_eq (W bits : Nat) (hW : 0 < W) (hW64 : W ≤ 64) (hb : bits < 2 ^ 64) :
    detail.ToUintWidth W bits =
      if bits / 2 ^ 63 % 2 = 1 then (2 ^ W - floorAbs bits % 2 ^ W) % 2 ^ W
      else floorAbs bits % 2 ^ W := by
  have h := toUintWidth_eq_aux W (bits / 2 ^ 63) (bits / 2 ^ 52 % 2 ^ 11) (bits % 2 ^ 52)
    hW hW64 (by omega) (by omega) (by omega)
  have hbits : bits / 2 ^ 63 * 2 ^ 63 + bits / 2 ^ 52 % 2 ^ 11 * 2 ^ 52 + bits % 2 ^ 52
      = bits := by omega
  rw [hbits] at h
  rw [h]
  have hs2 : bits / 2 ^ 63 % 2 = bits / 2 ^ 63 := by omega
  rw [hs2]

theorem toUintWidth_lt (W bits : Nat) (hW : 0 < W) (hW64 : W ≤ 64) (hb : bits < 2 ^ 64) :
    detail.ToUintWidth W bits < 2 ^ W := by
  rw [toUintWidth_eq W bits hW hW64 hb]
  split_ifs <;> exact Nat.mod_lt _ (Nat.two_pow_pos W)

theorem toUintWidth_modeq (W bits : Nat) (hW : 0 < W) (hW64 : W ≤ 64) (hb : bits < 2 ^ 64) :
    (detail.ToUintWidth W bits : ℤ) ≡ truncVal bits [ZMOD (2 ^ W : ℤ)] := by
  rw [toUintWidth_eq W bits hW hW64 hb, truncVal]
  have h2W : 0 < 2 ^ W := Nat.two_pow_pos W
  have hfa : floorAbs bits % 2 ^ W < 2 ^ W := Nat.mod_lt _ h2W
  have hmod : ((floorAbs bits % 2 ^ W : ℕ) : ℤ) ≡ (floorAbs bits : ℤ) [ZMOD (2 : ℤ) ^ W] := by
    rw [Int.natCast_mod]
    push_cast
    exact Int.emod_emod_of_dvd _ dvd_rfl
  by_cases hs : bits / 2 ^ 63 % 2 = 1
  · rw [if_pos hs, if_pos hs]
    calc (((2 ^ W - floorAbs bits % 2 ^ W) % 2 ^ W : ℕ) : ℤ)
        ≡ ((2 ^ W - floorAbs bits % 2 ^ W : ℕ) : ℤ) [ZMOD (2 : ℤ) ^ W] := by
          rw [Int.natCast_mod]
          push_cast
          exact Int.emod_emod_of_dvd _ dvd_rfl
      _ = (2 : ℤ) ^ W - ((floorAbs bits % 2 ^ W : ℕ) : ℤ) := by
          rw [Nat.cast_sub (le_of_lt hfa), Nat.cast_pow, Nat.cast_ofNat]
      _ ≡ 0 - (floorAbs bits : ℤ) [ZMOD (2 : ℤ) ^ W] := by
          apply Int.ModEq.sub
          · show (2 : ℤ) ^ W % 2 ^ W = 0 % 2 ^ W
            simp [Int.emod_self]
          · exact hmod
      _ = -1 * (floorAbs bits : ℤ) := by ring
  · rw [if_neg hs, if_neg hs]
    simpa using hmod

/-! ## Rational semantics: `floorAbs` is the floor of the magnitude -/

theorem magVal_cases (bits : Nat) :
    magVal bits =
      if bits / 2 ^ 52 % 2 ^ 11 = 0 then
        ((bits % 2 ^ 52 : ℕ) : ℚ) / ((2 ^ 1074 : ℕ) : ℚ)
      else if 1075 ≤ bits / 2 ^ 52 % 2 ^ 11 then
        (((2 ^ 52 + bits % 2 ^ 52) * 2 ^ (bits / 2 ^ 52 % 2 ^ 11 - 1075) : ℕ) : ℚ)
      else ((2 ^ 52 + bits % 2 ^ 52 : ℕ) : ℚ) /
        ((2 ^ (1075 - bits / 2 ^ 52 % 2 ^ 11) : ℕ) : ℚ) := by
  rw [magVal]
  by_cases h0 : bits / 2 ^ 52 % 2 ^ 11 = 0
  · rw [if_pos h0, if_pos h0]
    push_cast
    ring
  · rw [if_neg h0, if_neg h0]
    by_cases h1 : 1075 ≤ bits / 2 ^ 52 % 2 ^ 11
    · rw [if_pos h1]
      have he : ((bits / 2 ^ 52 % 2 ^ 11 : ℕ) : ℤ) - 1075
          = ((bits / 2 ^ 52 % 2 ^ 11 - 1075 : ℕ) : ℤ) := by omega
      rw [he, zpow_natCast]
      push_cast
      ring
    · rw [if_neg h1]
      have he : ((bits / 2 ^ 52 % 2 ^ 11 : ℕ) : ℤ) - 1075
          = -((1075 - bits / 2 ^ 52 % 2 ^ 11 : ℕ) : ℤ) := by omega
      rw [he, zpow_neg, zpow_natCast, ← div_eq_mul_inv]
      push_cast
      ring

theorem magVal_nonneg (bits : Nat) : 0 ≤ magVal bits := by
  rw [magVal]
  split_ifs
  · positivity
  · positivity

theorem abs_ratVal (bits : Nat) : |ratVal bits| = magVal bits := by
  rw [ratVal]
  split_ifs
  · rw [abs_neg, abs_of_nonneg (magVal_nonneg bits)]
  · rw [abs_of_nonneg (magVal_nonneg bits)]

theorem floorAbs_floor (bits : Nat) : (floorAbs bits : ℤ) = ⌊magVal bits⌋ := by
  have hm : bits % 2 ^ 52 < 2 ^ 52 := by omega
  rw [magVal_cases, floorAbs]
  by_cases h0 : bits / 2 ^ 52 % 2 ^ 11 = 0
  · rw [if_pos h0, if_pos h0, Rat.floor_natCast_div_natCast,
      Int.ediv_eq_zero_of_lt (by positivity) (by
        exact_mod_cast calc bits % 2 ^ 52 < 2 ^ 52 := hm
          _ ≤ 2 ^ 1074 := Nat.pow_le_pow_right (by norm_num) (by norm_num))]
    norm_num
  · rw [if_neg h0, if_neg h0]
    by_cases h1 : 1075 ≤ bits / 2 ^ 52 % 2 ^ 11
    · rw [if_pos h1, if_pos h1, Int.floor_natCast]
    · rw [if_neg h1, if_neg h1, Rat.floor_natCast_div_natCast, Int.ofNat_ediv]

theorem magVal_lt_one_iff (bits : Nat) :
    magVal bits < 1 ↔ bits / 2 ^ 52 % 2 ^ 11 < 1023 := by
  have hm : bits % 2 ^ 52 < 2 ^ 52 := by omega
  rw [magVal_cases]
  by_cases h0 : bits / 2 ^ 52 % 2 ^ 11 = 0
  · rw [if_pos h0]
    have hlt : ((bits % 2 ^ 52 : ℕ) : ℚ) / ((2 ^ 1074 : ℕ) : ℚ) < 1 := by
      rw [div_lt_one (by positivity)]
      exact_mod_cast calc bits % 2 ^ 52 < 2 ^ 52 := hm
        _ ≤ 2 ^ 1074 := Nat.pow_le_pow_right (by norm_num) (by norm_num)
    simp only [hlt, true_iff]
    omega
  · rw [if_neg h0]
    by_cases h1 : 1075 ≤ bits / 2 ^ 52 % 2 ^ 11
    · rw [if_pos h1]
      have hge : (1 : ℚ) ≤
          (((2 ^ 52 + bits % 2 ^ 52) * 2 ^ (bits / 2 ^ 52 % 2 ^ 11 - 1075) : ℕ) : ℚ) := by
        have h2 : 1 ≤ (2 ^ 52 + bits % 2 ^ 52) * 2 ^ (bits / 2 ^ 52 % 2 ^ 11 - 1075) :=
          Nat.mul_pos (by positivity) (by positivity)
        exact_mod_cast h2
      simp only [not_lt.mpr hge, false_iff]
      omega
    · rw [if_neg h1, div_lt_one (by positivity)]
      have hcast : ((((2 ^ 52 + bits % 2 ^ 52 : ℕ) : ℚ)) <
            ((2 ^ (1075 - bits / 2 ^ 52 % 2 ^ 11) : ℕ) : ℚ)) ↔
          (2 ^ 52 + bits % 2 ^ 52 < 2 ^ (1075 - bits / 2 ^ 52 % 2 ^ 11)) := by
        exact_mod_cast Iff.rfl
      rw [hcast]
      constructor
      · intro h
        by_contra hc
        push_neg at hc
        have : 2 ^ (1075 - bits / 2 ^ 52 % 2 ^ 11) ≤ 2 ^ 52 :=
          Nat.pow_le_pow_right (by norm_num) (by omega)
        omega
      · intro h
        calc 2 ^ 52 + bits % 2 ^ 52 < 2 ^ 53 := by omega
        _ ≤ 2 ^ (1075 - bits / 2 ^ 52 % 2 ^ 11) :=
          Nat.pow_le_pow_right (by norm_num) (by omega)

/-! ## Guard characterizations -/

theorem exponentOf_eq (bits : Nat) :
    exponentOf bits = ((bits / 2 ^ 52 % 2 ^ 11 : ℕ) : ℤ) - 1023 := by
  rw [exponentOf, biasedExponent_eq, DoubleExponentBias]
  norm_num

theorem exponentOf_nonfinite (bits : Nat) (h : isFiniteBits bits = false) :
    exponentOf bits = 1024 := by
  rw [isFiniteBits, bne_eq_false_iff_eq] at h
  rw [exponentOf_eq, h]
  norm_num

theorem isFiniteBits_iff (bits : Nat) :
    isFiniteBits bits = true ↔ bits / 2 ^ 52 % 2 ^ 11 ≠ 2047 := by
  rw [isFiniteBits, ne_eq, bne_iff_ne, ne_eq]

/-- The first early return: a negative decoded exponent yields 0. -/
theorem toUintWidth_zero_of_exp_neg (W bits : Nat) (h : exponentOf bits < 0) :
    detail.ToUintWidth W bits = 0 := by
  simp only [detail.ToUintWidth]
  rw [if_pos h]

/-- The second early return: a decoded exponent ≥ 52 + W yields 0. -/
theorem toUintWidth_zero_of_exp_ge (W bits : Nat) (h : (52 + W : ℤ) ≤ exponentOf bits) :
    detail.ToUintWidth W bits = 0 := by
  simp only [detail.ToUintWidth, DoubleExponentShift]
  rw [if_neg (by omega), if_pos (by omega)]

/-- `detail::ToIntWidth` is the two's-complement reinterpretation of
`detail::ToUintWidth`. -/
theorem toIntWidth_eq (W bits : Nat) (hW : W = 32 ∨ W = 64) (hb : bits < 2 ^ 64) :
    detail.ToIntWidth W bits =
      if (detail.ToUintWidth W bits : ℤ) ≤ 2 ^ (W - 1) - 1
      then (detail.ToUintWidth W bits : ℤ)
      else (detail.ToUintWidth W bits : ℤ) - 2 ^ W := by
  have hu : detail.ToUintWidth W bits < 2 ^ W :=
    toUintWidth_lt W bits (by rcases hW with h | h <;> omega)
      (by rcases hW with h | h <;> omega) hb
  rcases hW with h | h <;> subst h <;>
    simp only [detail.ToIntWidth, Int.bmod_def] <;> split_ifs <;> omega

/-- Every shift `detail::ToUintWidth` performs stays below the operand width. -/
theorem shiftsInRange_true (W bits : Nat) (hW : W = 32 ∨ W = 64) (hb : bits < 2 ^ 64) :
    shiftsInRange W bits = true := by
  simp only [shiftsInRange, DoubleExponentShift]
  by_cases h1 : exponentOf bits < 0
  · rw [if_pos h1]
  · rw [if_neg h1]
    by_cases h2 : 52 + W ≤ (exponentOf bits).toNat
    · rw [if_pos h2]
    · rw [if_neg h2]
      have hle : (exponentOf bits).toNat < 52 + W := by omega
      simp only [Bool.and_eq_true]
      constructor
      · split_ifs <;> simp only [decide_eq_true_eq] <;> omega
      · split_ifs <;> simp only [decide_eq_true_eq] <;> omega

/-! ## `ToInteger` lemmas -/

theorem toInteger_zero (neg : Bool) : ToInteger (Double.finite neg 0) = Double.finite neg 0 := by
  simp [ToInteger, Double.eqZero]

theorem toInteger_finite (neg : Bool) (mag : ℚ) (hmag : 0 < mag) :
    ToInteger (Double.finite neg mag) =
      if neg then (Double.finite neg mag).ceilD else (Double.finite neg mag).floorD := by
  rw [ToInteger,
    if_neg (by simp [Double.eqZero]; exact ne_of_gt hmag),
    if_neg (by simp [Double.isFin])]
  cases neg
  · rw [if_neg (by simp [Double.ltZero])]
    simp
  · rw [if_pos (by simp [Double.ltZero]; exact hmag)]
    simp

theorem floorD_nonneg_val (mag : ℚ) (h : 0 ≤ mag) :
    (Double.finite false mag).floorD = Double.finite false ((⌊mag⌋ : ℤ) : ℚ) := by
  simp only [Double.floorD, Bool.false_eq_true, if_false]
  rw [abs_of_nonneg (by exact_mod_cast Int.floor_nonneg.mpr h : (0 : ℚ) ≤ ((⌊mag⌋ : ℤ) : ℚ))]

theorem ceilD_neg_val (mag : ℚ) (h : 0 ≤ mag) :
    (Double.finite true mag).ceilD = Double.finite true ((⌊mag⌋ : ℤ) : ℚ) := by
  simp only [Double.ceilD, if_true]
  rw [Int.ceil_neg]
  rw [show (((-⌊mag⌋ : ℤ) : ℚ)) = -((⌊mag⌋ : ℤ) : ℚ) from by push_cast; ring, abs_neg,
    abs_of_nonneg (by exact_mod_cast Int.floor_nonneg.mpr h : (0 : ℚ) ≤ ((⌊mag⌋ : ℤ) : ℚ))]

theorem toInteger_idem_aux (neg : Bool) (mag : ℚ) (hmag : 0 ≤ mag) :
    ToInteger (ToInteger (Double.finite neg mag)) = ToInteger (Double.finite neg mag) := by
  rcases eq_or_lt_of_le hmag with h0 | hpos
  · rw [show ToInteger (Double.finite neg mag) = Double.finite neg mag from by
      rw [← h0]; exact toInteger_zero neg, ← h0]
    exact toInteger_zero neg
  · rw [toInteger_finite neg mag hpos]
    have hn : 0 ≤ ⌊mag⌋ := Int.floor_nonneg.mpr hmag
    cases neg
    · simp only [Bool.false_eq_true, if_false]
      rw [floorD_nonneg_val mag hmag]
      rcases eq_or_lt_of_le hn with hn0 | hnpos
      · rw [← hn0]
        norm_num
        exact toInteger_zero false
      · rw [toInteger_finite false _ (by exact_mod_cast hnpos)]
        simp only [Bool.false_eq_true, if_false]
        rw [floorD_nonneg_val _ (by exact_mod_cast hn), Int.floor_intCast]
    · simp only [if_true]
      rw [ceilD_neg_val mag hmag]
      rcases eq_or_lt_of_le hn with hn0 | hnpos
      · rw [← hn0]
        norm_num
        exact toInteger_zero true
      · rw [toInteger_finite true _ (by exact_mod_cast hnpos)]
        simp only [if_true]
        rw [ceilD_neg_val _ (by exact_mod_cast hn), Int.floor_intCast]

theorem toInteger_neg_frac (mag : ℚ) (h0 : 0 < mag) (h1 : mag < 1) :
    ToInteger (Double.finite true mag) = Double.finite true 0 := by
  rw [toInteger_finite true mag h0]
  simp only [if_true]
  rw [ceilD_neg_val mag (le_of_lt h0),
    Int.floor_eq_zero_iff.mpr (Set.mem_Ico.mpr ⟨le_of_lt h0, h1⟩)]
  norm_num

theorem truncVal_eq_sign_floor (bits : Nat) :
    truncVal bits = (if ratVal bits < 0 then -1 else 1) * ⌊|ratVal bits|⌋ := by
  rw [truncVal, abs_ratVal, ← floorAbs_floor]
  by_cases h0 : floorAbs bits = 0
  · rw [h0]
    simp
  · have hpos : 0 < magVal bits := by
      rcases lt_or_eq_of_le (magVal_nonneg bits) with h | h
      · exact h
      · exfalso
        apply h0
        have h2 : (floorAbs bits : ℤ) = 0 := by rw [floorAbs_floor, ← h]; norm_num
        exact_mod_cast h2
    have hsign : ratVal bits < 0 ↔ bits / 2 ^ 63 % 2 = 1 := by
      rw [ratVal]
      by_cases h : bits / 2 ^ 63 % 2 = 1
      · rw [if_pos h, iff_true_intro h, iff_true]
        exact neg_lt_zero.mpr hpos
      · rw [if_neg h, iff_false_intro h, iff_false]
        exact not_lt.mpr (magVal_nonneg bits)
    by_cases hs : bits / 2 ^ 63 % 2 = 1
    · rw [if_pos hs, if_pos (hsign.mpr hs)]
    · rw [if_neg hs, if_neg (fun hc => hs (hsign.mp hc))]

end js

/-! ## Claims -/

/-- C1: for W ∈ {32, 64}, on a finite double pattern `ToUintWidth<W>` returns
the unique W-bit unsigned integer congruent modulo 2^W to sign(d)·floor(|d|)
(value semantics given by `js.ratVal`), and non-finite inputs (NaN, ±Infinity)
map to 0.  `ToUint32` and `ToUint64` are the W = 32 / 64 instances. -/
theorem C1_toUintWidth_congruent (W bits : Nat) (hW : W = 32 ∨ W = 64) (hb : bits < 2 ^ 64) :
    (js.isFiniteBits bits = true →
      js.detail.ToUintWidth W bits < 2 ^ W ∧
      (js.detail.ToUintWidth W bits : ℤ) ≡
        (if js.ratVal bits < 0 then -1 else 1) * ⌊|js.ratVal bits|⌋ [ZMOD (2 : ℤ) ^ W] ∧
      (∀ v : ℕ, v < 2 ^ W →
        ((v : ℤ) ≡ (if js.ratVal bits < 0 then -1 else 1) * ⌊|js.ratVal bits|⌋
          [ZMOD (2 : ℤ) ^ W]) →
        v = js.detail.ToUintWidth W bits)) ∧
    (js.isFiniteBits bits = false → js.detail.ToUintWidth W bits = 0) := by
  have hW0 : 0 < W := by rcases hW with h | h <;> omega
  have hW64 : W ≤ 64 := by rcases hW with h | h <;> omega
  have hmodeq := js.toUintWidth_modeq W bits hW0 hW64 hb
  rw [js.truncVal_eq_sign_floor] at hmodeq
  constructor
  · intro _
    have hult := js.toUintWidth_lt W bits hW0 hW64 hb
    refine ⟨hult, hmodeq, ?_⟩
    intro v hv hvm
    have h1 : (v : ℤ) % (2 : ℤ) ^ W = (js.detail.ToUintWidth W bits : ℤ) % (2 : ℤ) ^ W :=
      hvm.trans hmodeq.symm
    have hv' : (v : ℤ) % (2 : ℤ) ^ W = (v : ℤ) :=
      Int.emod_eq_of_lt (Int.natCast_nonneg v) (by exact_mod_cast hv)
    have hu' : (js.detail.ToUintWidth W bits : ℤ) % (2 : ℤ) ^ W
        = (js.detail.ToUintWidth W bits : ℤ) :=
      Int.emod_eq_of_lt (Int.natCast_nonneg _) (by exact_mod_cast hult)
    exact_mod_cast (hv'.symm.trans (h1.trans hu'))
  · intro h
    apply js.toUintWidth_zero_of_exp_ge
    rw [js.exponentOf_nonfinite bits h]
    omega

/-- C1 witness: W = 32 at the pattern of -5.5 (sign bit, biased exponent 1025,
mantissa 3·2^50). -/
theorem C1_witness :
    ((32 : ℕ) = 32 ∨ (32 : ℕ) = 64) ∧ (2 ^ 63 + 1025 * 2 ^ 52 + 3 * 2 ^ 50 : ℕ) < 2 ^ 64 ∧
    ((js.isFiniteBits (2 ^ 63 + 1025 * 2 ^ 52 + 3 * 2 ^ 50) = true →
      js.detail.ToUintWidth 32 (2 ^ 63 + 1025 * 2 ^ 52 + 3 * 2 ^ 50) < 2 ^ 32 ∧
      (js.detail.ToUintWidth 32 (2 ^ 63 + 1025 * 2 ^ 52 + 3 * 2 ^ 50) : ℤ) ≡
        (if js.ratVal (2 ^ 63 + 1025 * 2 ^ 52 + 3 * 2 ^ 50) < 0 then -1 else 1) *
          ⌊|js.ratVal (2 ^ 63 + 1025 * 2 ^ 52 + 3 * 2 ^ 50)|⌋ [ZMOD (2 : ℤ) ^ 32] ∧
      (∀ v : ℕ, v < 2 ^ 32 →
        ((v : ℤ) ≡ (if js.ratVal (2 ^ 63 + 1025 * 2 ^ 52 + 3 * 2 ^ 50) < 0 then -1 else 1) *
          ⌊|js.ratVal (2 ^ 63 + 1025 * 2 ^ 52 + 3 * 2 ^ 50)|⌋ [ZMOD (2 : ℤ) ^ 32]) →
        v = js.detail.ToUintWidth 32 (2 ^ 63 + 1025 * 2 ^ 52 + 3 * 2 ^ 50))) ∧
    (js.isFiniteBits (2 ^ 63 + 1025 * 2 ^ 52 + 3 * 2 ^ 50) = false →
      js.detail.ToUintWidth 32 (2 ^ 63 + 1025 * 2 ^ 52 + 3 * 2 ^ 50) = 0)) :=
  ⟨Or.inl rfl, by decide,
    C1_toUintWidth_congruent 32 (2 ^ 63 + 1025 * 2 ^ 52 + 3 * 2 ^ 50) (Or.inl rfl) (by decide)⟩

/-- C2: `ToUintWidth<W>` returns 0 at both early returns: when the decoded
exponent is negative (equivalently |d| < 1, which includes ±0 and all
subnormals) and when the decoded exponent is ≥ 52 + W (which covers ±Infinity
and NaN, whose exponent decodes to 1024). -/
theorem C2_early_zero_cases (W bits : Nat) (hW : W = 32 ∨ W = 64) (hb : bits < 2 ^ 64) :
    (js.exponentOf bits < 0 → js.detail.ToUintWidth W bits = 0) ∧
    (js.exponentOf bits < 0 ↔ |js.ratVal bits| < 1) ∧
    ((52 + W : ℤ) ≤ js.exponentOf bits → js.detail.ToUintWidth W bits = 0) ∧
    (js.isFiniteBits bits = false → (52 + W : ℤ) ≤ js.exponentOf bits) := by
  refine ⟨js.toUintWidth_zero_of_exp_neg W bits, ?_, js.toUintWidth_zero_of_exp_ge W bits, ?_⟩
  · rw [js.abs_ratVal, js.magVal_lt_one_iff, js.exponentOf_eq]
    omega
  · intro h
    rw [js.exponentOf_nonfinite bits h]
    have hW64 : W ≤ 64 := by rcases hW with h' | h' <;> omega
    omega

/-- C2 witness: W = 32 at the pattern of 0.5 (biased exponent 1022). -/
theorem C2_witness :
    ((32 : ℕ) = 32 ∨ (32 : ℕ) = 64) ∧ (1022 * 2 ^ 52 : ℕ) < 2 ^ 64 ∧
    ((js.exponentOf (1022 * 2 ^ 52) < 0 → js.detail.ToUintWidth 32 (1022 * 2 ^ 52) = 0) ∧
    (js.exponentOf (1022 * 2 ^ 52) < 0 ↔ |js.ratVal (1022 * 2 ^ 52)| < 1) ∧
    ((52 + 32 : ℤ) ≤ js.exponentOf (1022 * 2 ^ 52) →
      js.detail.ToUintWidth 32 (1022 * 2 ^ 52) = 0) ∧
    (js.isFiniteBits (1022 * 2 ^ 52) = false →
      (52 + 32 : ℤ) ≤ js.exponentOf (1022 * 2 ^ 52))) :=
  ⟨Or.inl rfl, by decide, C2_early_zero_cases 32 (1022 * 2 ^ 52) (Or.inl rfl) (by decide)⟩

/-- C3: `ToIntWidth<W>` is the signed integer whose W-bit two's-complement
pattern equals `ToUintWidth<W>(d)`: the unsigned value `u` itself when
`u ≤ 2^(W-1) - 1`, and `u - 2^W` otherwise. -/
theorem C3_toIntWidth_twos_complement (W bits : Nat) (hW : W = 32 ∨ W = 64)
    (hb : bits < 2 ^ 64) :
    js.detail.ToIntWidth W bits =
      if (js.detail.ToUintWidth W bits : ℤ) ≤ 2 ^ (W - 1) - 1
      then (js.detail.ToUintWidth W bits : ℤ)
      else (js.detail.ToUintWidth W bits : ℤ) - 2 ^ W :=
  js.toIntWidth_eq W bits hW hb

/-- C3 witness: W = 32 at the pattern of -1.0, where the unsigned value is
2^32 - 1 and the wrap case is exercised. -/
theorem C3_witness :
    ((32 : ℕ) = 32 ∨ (32 : ℕ) = 64) ∧ (2 ^ 63 + 1023 * 2 ^ 52 : ℕ) < 2 ^ 64 ∧
    js.detail.ToIntWidth 32 (2 ^ 63 + 1023 * 2 ^ 52) =
      (if (js.detail.ToUintWidth 32 (2 ^ 63 + 1023 * 2 ^ 52) : ℤ) ≤ 2 ^ (32 - 1) - 1
       then (js.detail.ToUintWidth 32 (2 ^ 63 + 1023 * 2 ^ 52) : ℤ)
       else (js.detail.ToUintWidth 32 (2 ^ 63 + 1023 * 2 ^ 52) : ℤ) - 2 ^ 32) :=
  ⟨Or.inl rfl, by decide,
    C3_toIntWidth_twos_complement 32 (2 ^ 63 + 1023 * 2 ^ 52) (Or.inl rfl) (by decide)⟩

/-- C4 counterexample: the claim assigns `floor` to negative inputs and `ceil`
to the rest, but at d = -2.7 (here `finite true (27/10)`) the code returns
`ceil(d) = -2`, not `floor(d) = -3`, and at d = 2.1 it returns
`floor(d) = 2`, not `ceil(d) = 3`. -/
theorem C4_counterexample :
    ¬ (js.ToInteger (js.Double.finite true (mkRat 27 10))
        = (js.Double.finite true (mkRat 27 10)).floorD) ∧
    ¬ (js.ToInteger (js.Double.finite false (mkRat 21 10))
        = (js.Double.finite false (mkRat 21 10)).ceilD) ∧
    js.ToInteger (js.Double.finite true (mkRat 27 10)) = js.Double.finite true 2 ∧
    (js.Double.finite true (mkRat 27 10)).floorD = js.Double.finite true 3 := by
  refine ⟨by decide, by decide, by decide, by decide⟩

/-- C4 amended: for every finite nonzero double d, ToInteger(d) equals ceil(d)
if d < 0 and equals floor(d) otherwise (truncation toward zero). -/
theorem C4_amended_trunc (neg : Bool) (mag : ℚ) (hmag : 0 < mag) :
    ((js.Double.finite neg mag).ltZero = true →
      js.ToInteger (js.Double.finite neg mag) = (js.Double.finite neg mag).ceilD) ∧
    ((js.Double.finite neg mag).ltZero = false →
      js.ToInteger (js.Double.finite neg mag) = (js.Double.finite neg mag).floorD) := by
  constructor <;> intro h <;> rw [js.toInteger_finite neg mag hmag]
  · have hn : neg = true := by
      simp [js.Double.ltZero] at h
      exact h.1
    rw [hn]
    simp
  · have hn : neg = false := by
      simp [js.Double.ltZero, hmag] at h
      exact h
    rw [hn]
    simp

/-- C4 witness: the amended claim at d = -2.7. -/
theorem C4_witness :
    (0 : ℚ) < mkRat 27 10 ∧
    (((js.Double.finite true (mkRat 27 10)).ltZero = true →
      js.ToInteger (js.Double.finite true (mkRat 27 10))
        = (js.Double.finite true (mkRat 27 10)).ceilD) ∧
    ((js.Double.finite true (mkRat 27 10)).ltZero = false →
      js.ToInteger (js.Double.finite true (mkRat 27 10))
        = (js.Double.finite true (mkRat 27 10)).floorD)) :=
  ⟨by decide, C4_amended_trunc true (mkRat 27 10) (by decide)⟩

/-- C5: ToInteger returns ±0.0 unchanged (sign of zero preserved), returns +0
on NaN, and returns ±Infinity unchanged. -/
theorem C5_special_values :
    (∀ neg : Bool, js.ToInteger (js.Double.finite neg 0) = js.Double.finite neg 0) ∧
    js.ToInteger js.Double.nan = js.Double.finite false 0 ∧
    js.ToInteger js.Double.posInf = js.Double.posInf ∧
    js.ToInteger js.Double.negInf = js.Double.negInf := by
  decide

/-- C6: for every input that passes the two exponent-range guards, each shift
in `ToUintWidth` has an amount strictly below the width of its operand, so no
input reaches an undefined-behavior shift. -/
theorem C6_no_ub_shifts (W bits : Nat) (hW : W = 32 ∨ W = 64) (hb : bits < 2 ^ 64) :
    js.shiftsInRange W bits = true :=
  js.shiftsInRange_true W bits hW hb

/-- C6 witness: W = 64 at the pattern of 2^52 (biased exponent 1075, the
left-shift branch). -/
theorem C6_witness :
    ((64 : ℕ) = 32 ∨ (64 : ℕ) = 64) ∧ (1075 * 2 ^ 52 : ℕ) < 2 ^ 64 ∧
    js.shiftsInRange 64 (1075 * 2 ^ 52) = true :=
  ⟨Or.inr rfl, by decide, C6_no_ub_shifts 64 (1075 * 2 ^ 52) (Or.inr rfl) (by decide)⟩

/-- C7: the boundary and example values.  Bit patterns: `1054·2^52` encodes
2147483648.0 (= 2^31), `1055·2^52` encodes 4294967296.0 (= 2^32),
`1054·2^52 + (2^32-1)·2^20` encodes 4294967295.5, `1055·2^52 + 2^20` encodes
4294967297.0, `2^63 + 1023·2^52` encodes -1.0 — each certified by the
`js.ratVal` conjunct next to it; `mkRat 27 10` is 2.7, `mkRat 21 10` is 2.1. -/
theorem C7_boundary_examples :
    js.ratVal (1054 * 2 ^ 52) = 2147483648 ∧
    js.ToInt32 (1054 * 2 ^ 52) = -2147483648 ∧
    js.ratVal (1055 * 2 ^ 52) = 4294967296 ∧
    js.ToUint32 (1055 * 2 ^ 52) = 0 ∧
    js.ratVal (1054 * 2 ^ 52 + (2 ^ 32 - 1) * 2 ^ 20) = 4294967295 + 1 / 2 ∧
    js.ToUint32 (1054 * 2 ^ 52 + (2 ^ 32 - 1) * 2 ^ 20) = 4294967295 ∧
    js.ratVal (1055 * 2 ^ 52 + 2 ^ 20) = 4294967297 ∧
    js.ToInt32 (1055 * 2 ^ 52 + 2 ^ 20) = 1 ∧
    js.ratVal (2 ^ 63 + 1023 * 2 ^ 52) = -1 ∧
    js.ToUint32 (2 ^ 63 + 1023 * 2 ^ 52) = 4294967295 ∧
    js.ToInteger (js.Double.finite true (mkRat 27 10)) = js.Double.finite true 2 ∧
    js.ToInteger (js.Double.finite false (mkRat 21 10)) = js.Double.finite false 2 ∧
    (mkRat 27 10 : ℚ) = 27 / 10 ∧ (mkRat 21 10 : ℚ) = 21 / 10 := by
  refine ⟨by norm_num [js.ratVal, js.magVal], by decide,
    by norm_num [js.ratVal, js.magVal], by decide,
    by norm_num [js.ratVal, js.magVal], by decide,
    by norm_num [js.ratVal, js.magVal], by decide,
    by norm_num [js.ratVal, js.magVal], by decide,
    by decide, by decide,
    by norm_num [Rat.mkRat_eq_div], by norm_num [Rat.mkRat_eq_div]⟩

/-- C8: ToInteger is idempotent on every finite double. -/
theorem C8_toInteger_idempotent (neg : Bool) (mag : ℚ) (hmag : 0 ≤ mag) :
    js.ToInteger (js.ToInteger (js.Double.finite neg mag))
      = js.ToInteger (js.Double.finite neg mag) :=
  js.toInteger_idem_aux neg mag hmag

/-- C8 witness: at d = 2.1. -/
theorem C8_witness :
    (0 : ℚ) ≤ mkRat 21 10 ∧
    js.ToInteger (js.ToInteger (js.Double.finite false (mkRat 21 10)))
      = js.ToInteger (js.Double.finite false (mkRat 21 10)) :=
  ⟨by decide, C8_toInteger_idempotent false (mkRat 21 10) (by decide)⟩

/-- C9: when sign(d)·floor(|d|) lies in the int32 range, ToInt64 and ToInt32
agree as mathematical integers (the int64 result is the sign extension of the
int32 result). -/
theorem C9_toInt64_agrees_toInt32 (bits : Nat) (hb : bits < 2 ^ 64)
    (hfin : js.isFiniteBits bits = true)
    (hlo : -(2 ^ 31) ≤ js.truncVal bits) (hhi : js.truncVal bits ≤ 2 ^ 31 - 1) :
    js.ToInt64 bits = js.ToInt32 bits := by
  have h32 : (js.detail.ToUintWidth 32 bits : ℤ) % (2 : ℤ) ^ 32
      = js.truncVal bits % (2 : ℤ) ^ 32 :=
    js.toUintWidth_modeq 32 bits (by norm_num) (by norm_num) hb
  have h64 : (js.detail.ToUintWidth 64 bits : ℤ) % (2 : ℤ) ^ 64
      = js.truncVal bits % (2 : ℤ) ^ 64 :=
    js.toUintWidth_modeq 64 bits (by norm_num) (by norm_num) hb
  have l32 : js.detail.ToUintWidth 32 bits < 2 ^ 32 :=
    js.toUintWidth_lt 32 bits (by norm_num) (by norm_num) hb
  have l64 : js.detail.ToUintWidth 64 bits < 2 ^ 64 :=
    js.toUintWidth_lt 64 bits (by norm_num) (by norm_num) hb
  rw [js.ToInt64, js.ToInt32, js.toIntWidth_eq 32 bits (Or.inl rfl) hb,
    js.toIntWidth_eq 64 bits (Or.inr rfl) hb]
  split_ifs <;> omega

/-- C9 witness: at the pattern of 1.0 (truncated value 1). -/
theorem C9_witness :
    (1023 * 2 ^ 52 : ℕ) < 2 ^ 64 ∧ js.isFiniteBits (1023 * 2 ^ 52) = true ∧
    -(2 ^ 31) ≤ js.truncVal (1023 * 2 ^ 52) ∧ js.truncVal (1023 * 2 ^ 52) ≤ 2 ^ 31 - 1 ∧
    js.ToInt64 (1023 * 2 ^ 52) = js.ToInt32 (1023 * 2 ^ 52) :=
  ⟨by decide, by decide, by decide, by decide,
    C9_toInt64_agrees_toInt32 (1023 * 2 ^ 52) (by decide) (by decide) (by decide) (by decide)⟩

/-- C10: for every double strictly between -1 and 0, ToInteger returns negative
zero (`finite true 0`), which is distinct from +0.0 (`finite false 0`). -/
theorem C10_neg_fraction_negzero (mag : ℚ) (h0 : 0 < mag) (h1 : mag < 1) :
    js.ToInteger (js.Double.finite true mag) = js.Double.finite true 0 ∧
    js.Double.finite true (0 : ℚ) ≠ js.Double.finite false 0 :=
  ⟨js.toInteger_neg_frac mag h0 h1, by decide⟩

/-- C10 witness: at d = -0.5. -/
theorem C10_witness :
    (0 : ℚ) < mkRat 1 2 ∧ mkRat 1 2 < 1 ∧
    (js.ToInteger (js.Double.finite true (mkRat 1 2)) = js.Double.finite true 0 ∧
    js.Double.finite true (0 : ℚ) ≠ js.Double.finite false 0) :=
  ⟨by decide, by decide, C10_neg_fraction_negzero (mkRat 1 2) (by decide) (by decide)⟩
